import Mathlib

/-!
Shallow embedding of the toy_payments ledger engine
(src/account.rs, src/transaction.rs, src/engine.rs).

Monetary amounts in the source are `rust_decimal::Decimal` values, a
fixed-point decimal type whose addition, subtraction and comparison are
exact.  The input format allows at most four fraction digits, so amounts
are embedded as integers counting units of 10^-4 (e.g. `1.5` is `15000`);
`+`, `-` and `<` on `Int` coincide with the `Decimal` operations.

Mutable state is passed explicitly: `Engine::process_transaction`
becomes a function `Engine → … → Engine`, a `&mut Account` becomes a
read of the account followed by a functional write-back, and
`Transactions::get_tx_mut` returns the index together with the record so
the caller can both read the record and write the mutated record back at
that index.
-/

namespace ToyPayments

/-- The `Type` enum of src/transaction.rs (named `TxType` here because
`Type` is reserved in Lean). -/
inductive TxType where
  | Deposit
  | Withdrawal
  | Dispute
  | Resolve
  | Chargeback
deriving DecidableEq

/-- The `Transaction` struct of src/transaction.rs.  `client` is a `u16`
and `tx` a `u32` in the source; the claims involve no wraparound, so both
are embedded as `Nat`. -/
structure Transaction where
  type : TxType
  client : Nat
  tx : Nat
  amount : Option Int
  disputed : Bool
deriving DecidableEq

/-- The index-population filter of `Transactions::populate_map`
(src/transaction.rs line 80): only deposit and withdrawal records are
entered into the tx-id index. -/
def isIndexed (t : Transaction) : Bool :=
  t.type == TxType.Deposit || t.type == TxType.Withdrawal

/-- The `Account` struct of src/account.rs. -/
structure Account where
  client : Nat
  available : Int
  held : Int
  total : Int
  locked : Bool
deriving DecidableEq

/-- `Account::new` (src/account.rs): zero balances, unlocked. -/
def Account.new (client : Nat) : Account :=
  { client := client, available := 0, held := 0, total := 0, locked := false }

/-- The `Accounts` collection (src/account.rs): a map from client id to
account, embedded as a partial function. -/
abbrev Accounts := Nat → Option Account

/-- `Accounts::new`: the empty map. -/
def Accounts.empty : Accounts := fun _ => none

/-- Insertion into the accounts map (the write-through of a `&mut Account`). -/
def Accounts.set (a : Accounts) (client : Nat) (acc : Account) : Accounts :=
  fun c => if c = client then some acc else a c

/-- `Accounts::get_mut` (src/account.rs lines 55-57): returns the account
for `client`, inserting a fresh zero-valued account first if none exists.
The returned map reflects the possible insertion. -/
def Accounts.get_mut (a : Accounts) (client : Nat) : Accounts × Account :=
  match a client with
  | some acc => (a, acc)
  | none => (Accounts.set a client (Account.new client), Account.new client)

/-- The `Transactions` collection (src/transaction.rs): the record vector
plus the `tx_index_map` from tx id to vector index. -/
structure Transactions where
  transactions : List Transaction
  tx_index_map : Nat → Option Nat

/-- `Transactions::default()`: empty vector, empty map. -/
def Transactions.default : Transactions :=
  { transactions := [], tx_index_map := fun _ => none }

/-- One `HashMap::insert` into the tx-id index. -/
def mapInsert (m : Nat → Option Nat) (k v : Nat) : Nat → Option Nat :=
  fun q => if q = k then some v else m q

/-- The loop of `Transactions::populate_map` (src/transaction.rs lines
78-84), with `i` the enumeration index of the first record of `txs`:
walks the records left to right, inserting `tx ↦ index` for every
deposit/withdrawal record, so a later record with the same tx id
overwrites an earlier entry. -/
def populate_go (i : Nat) (txs : List Transaction) (m : Nat → Option Nat) :
    Nat → Option Nat :=
  match txs with
  | [] => m
  | t :: rest =>
      populate_go (i + 1) rest (if isIndexed t then mapInsert m t.tx i else m)

/-- `Transactions::populate_map`: (re)populates the index over the whole
vector, on top of the existing map (the source never clears it). -/
def Transactions.populate_map (ts : Transactions) : Transactions :=
  { ts with tx_index_map := populate_go 0 ts.transactions ts.tx_index_map }

/-- `Transactions::extend` (src/transaction.rs lines 69-72): appends the
other collection's records, then repopulates the index (the other
collection's own map is discarded). -/
def Transactions.extend (ts other : Transactions) : Transactions :=
  Transactions.populate_map
    { ts with transactions := ts.transactions ++ other.transactions }

/-- `Transactions::from(Vec<Transaction>)` (src/transaction.rs lines
51-61): wraps the vector and populates the index from an empty map. -/
def Transactions.fromList (l : List Transaction) : Transactions :=
  Transactions.populate_map { transactions := l, tx_index_map := fun _ => none }

/-- `Transactions::get`. -/
def Transactions.get (ts : Transactions) (index : Nat) : Option Transaction :=
  ts.transactions[index]?

/-- `Transactions::len`. -/
def Transactions.len (ts : Transactions) : Nat :=
  ts.transactions.length

/-- `Transactions::get_tx_mut` (src/transaction.rs lines 102-108): looks
up the index for `tx` in the map, then fetches the record at that index.
Returns the index along with the record so the caller can write back. -/
def Transactions.get_tx_mut (ts : Transactions) (tx : Nat) :
    Option (Nat × Transaction) :=
  match ts.tx_index_map tx with
  | some index =>
      match ts.transactions[index]? with
      | some t => some (index, t)
      | none => none
  | none => none

/-- Write-back of a mutated record at a vector index (the effect of
assigning through the `&mut Transaction` of `get_tx_mut`). -/
def Transactions.setAt (ts : Transactions) (index : Nat) (t : Transaction) :
    Transactions :=
  { ts with transactions := ts.transactions.set index t }

/-- The `Engine` struct of src/engine.rs. -/
structure Engine where
  accounts : Accounts
  transactions : Transactions
  last_processed_transaction_index : Nat

/-- `Engine::new` (src/engine.rs lines 20-26). -/
def Engine.new (accounts : Accounts) : Engine :=
  { accounts := accounts,
    transactions := Transactions.default,
    last_processed_transaction_index := 0 }

/-- `Engine::process_transaction` (src/engine.rs lines 54-133), the
transaction state machine, as a state transformer. -/
def Engine.process_transaction (e : Engine) (current_transaction_index : Nat)
    (client : Nat) : Engine :=
  let fetched := e.accounts.get_mut client
  let account := fetched.2
  let e := { e with accounts := fetched.1 }
  if account.locked then e
  else
    match e.transactions.get current_transaction_index with
    | none => e
    | some transaction =>
      match transaction.type with
      | TxType.Deposit =>
          if !transaction.disputed then
            match transaction.amount with
            | some amount =>
                let account' := { account with
                  available := account.available + amount,
                  total := account.total + amount }
                { e with accounts := Accounts.set e.accounts client account' }
            | none => e
          else e
      | TxType.Withdrawal =>
          if !transaction.disputed then
            match transaction.amount with
            | some amount =>
                if account.available < amount then e
                else
                  let account' := { account with
                    available := account.available - amount,
                    total := account.total - amount }
                  { e with accounts := Accounts.set e.accounts client account' }
            | none => e
          else e
      | TxType.Dispute =>
          match e.transactions.get_tx_mut transaction.tx with
          | none => e
          | some (index, tx) =>
              if tx.disputed then e
              else
                match tx.amount with
                | some amount =>
                    let account' := { account with
                      available := account.available - amount,
                      held := account.held + amount }
                    { e with
                      accounts := Accounts.set e.accounts client account',
                      transactions :=
                        e.transactions.setAt index ({ tx with disputed := true }) }
                | none => e
      | TxType.Resolve =>
          match e.transactions.get_tx_mut transaction.tx with
          | none => e
          | some (index, tx) =>
              if tx.disputed then
                match tx.amount with
                | some amount =>
                    let account' := { account with
                      available := account.available + amount,
                      held := account.held - amount }
                    { e with
                      accounts := Accounts.set e.accounts client account',
                      transactions :=
                        e.transactions.setAt index ({ tx with disputed := false }) }
                | none => e
              else e
      | TxType.Chargeback =>
          match e.transactions.get_tx_mut transaction.tx with
          | none => e
          | some (_index, tx) =>
              if tx.disputed then
                match tx.amount with
                | some amount =>
                    let account' := { account with
                      held := account.held - amount,
                      total := account.total - amount,
                      locked := true }
                    { e with accounts := Accounts.set e.accounts client account' }
                | none => e
              else e

/-- The processing loop of `Engine::process` (src/engine.rs lines 38-45):
runs `process_transaction` at positions `index, index+1, …` for `fuel`
steps (the range `cursor..len` iterates `len - cursor` times; the vector
length never changes during the loop). -/
def Engine.processLoop (e : Engine) (index : Nat) : Nat → Engine
  | 0 => e
  | fuel + 1 =>
      let e' :=
        match e.transactions.get index with
        | some transaction => e.process_transaction index transaction.client
        | none => e
      Engine.processLoop e' (index + 1) fuel

/-- `Engine::process` (src/engine.rs lines 35-49): extends the store,
processes every position from the cursor to the new end, then advances
the cursor. -/
def Engine.process (e : Engine) (trxs : Transactions) : Engine :=
  let ts := e.transactions.extend trxs
  let e := { e with transactions := ts }
  let e := e.processLoop e.last_processed_transaction_index
    (ts.len - e.last_processed_transaction_index)
  { e with last_processed_transaction_index := e.transactions.len }

/-- The account the engine would observe for client `c`: the stored one,
or the fresh zero account `Accounts::get_mut` would create. -/
def Engine.readAcc (e : Engine) (c : Nat) : Account :=
  (e.accounts c).getD (Account.new c)

/-- Record constructor for concrete inputs (`disputed` defaults to `false`,
as `serde(skip, default)` makes every ingested record undisputed). -/
def mkTx (k : TxType) (client tx : Nat) (amount : Option Int) : Transaction :=
  { type := k, client := client, tx := tx, amount := amount, disputed := false }

/-- A concrete deposit record. -/
def dep (client tx : Nat) (amt : Int) : Transaction :=
  mkTx TxType.Deposit client tx (some amt)

/-- A concrete withdrawal record. -/
def wdl (client tx : Nat) (amt : Int) : Transaction :=
  mkTx TxType.Withdrawal client tx (some amt)

/-- A concrete dispute record. -/
def dsp (client tx : Nat) : Transaction :=
  mkTx TxType.Dispute client tx none

/-- A concrete resolve record. -/
def rsv (client tx : Nat) : Transaction :=
  mkTx TxType.Resolve client tx none

/-- A concrete chargeback record. -/
def cbk (client tx : Nat) : Transaction :=
  mkTx TxType.Chargeback client tx none

/-- The balance invariant of the spec: `total == available + held`. -/
def balanced (a : Account) : Prop :=
  a.total = a.available + a.held

/-- The part of a record that `process_transaction` reads and never
writes: everything but the `disputed` flag. -/
def shape (t : Transaction) : TxType × Nat × Nat × Option Int :=
  (t.type, t.client, t.tx, t.amount)

/-- Position of the last deposit/withdrawal record with tx id `k`, if
any: the entry `populate_map` leaves in the index for `k`. -/
def lastOcc (txs : List Transaction) (k : Nat) : Option Nat :=
  match txs with
  | [] => none
  | t :: rest =>
      match lastOcc rest k with
      | some j => some (j + 1)
      | none => if isIndexed t = true ∧ t.tx = k then some 0 else none

/-- The fully-populated index of a record list, as a function. -/
def mapOf (txs : List Transaction) : Nat → Option Nat :=
  fun k => lastOcc txs k

/-- C7 scenario: deposit 1.5, dispute it, charge it back. -/
def c7Engine : Engine :=
  (((Engine.new Accounts.empty).process
      (Transactions.fromList [dep 1 1 15000])).process
      (Transactions.fromList [dsp 1 1])).process
      (Transactions.fromList [cbk 1 1])

/-- C7 scenario continued: a withdrawal of 0.01 after the chargeback. -/
def c7After : Engine :=
  c7Engine.process (Transactions.fromList [wdl 1 2 100])

/-- C9 scenario: client 1 deposits 5.0 under tx 1; a dispute record
carrying client 2 references tx 1. -/
def c9Engine : Engine :=
  (Engine.new Accounts.empty).process
    (Transactions.fromList [dep 1 1 50000, dsp 2 1])

/-- C10 scenario: deposit 1.0, withdraw it all, then dispute the
deposit. -/
def c10Engine : Engine :=
  (Engine.new Accounts.empty).process
    (Transactions.fromList [dep 1 1 10000, wdl 1 2 10000, dsp 1 1])

/-- C2 counterexample, first batch: a deposit under tx 1, then a dispute
of tx 1. -/
def c2A : List Transaction := [dep 1 1 10000, dsp 1 1]

/-- C2 counterexample, second batch: a deposit by another client reusing
tx id 1. -/
def c2B : List Transaction := [dep 2 1 50000]

/-- The two-call run of the C2 counterexample. -/
def c2Split : Engine :=
  ((Engine.new Accounts.empty).process
    (Transactions.fromList c2A)).process (Transactions.fromList c2B)

/-- The one-call run of the C2 counterexample. -/
def c2Comb : Engine :=
  (Engine.new Accounts.empty).process (Transactions.fromList (c2A ++ c2B))

/-- C6 counterexample, reachable prefix: two deposits, both disputed,
chargeback of the first (locking the account, with tx 2 still
disputed). -/
def c6Prefix : List Transaction :=
  [dep 1 1 10000, dep 1 2 20000, dsp 1 1, dsp 1 2, cbk 1 1]

/-- Engine state after the C6 prefix. -/
def c6Engine : Engine :=
  (Engine.new Accounts.empty).process (Transactions.fromList c6Prefix)

/-- The engine state `Engine::process` builds just before the loop
reaches the appended resolve record: store extended, index repopulated. -/
def c6Pre : Engine :=
  { c6Engine with
    transactions := c6Engine.transactions.extend (Transactions.fromList [rsv 1 2]) }

/-- Concrete engine for exercising the withdrawal step: client 1 holds
0.05 available and a 0.01 withdrawal is stored at position 0. -/
def c3Engine : Engine :=
  { accounts := Accounts.set Accounts.empty 1
      { client := 1, available := 500, held := 0, total := 500, locked := false },
    transactions := Transactions.fromList [wdl 1 1 100],
    last_processed_transaction_index := 0 }

/-- Concrete engine whose client-1 account is already locked. -/
def c4Engine : Engine :=
  Engine.new (Accounts.set Accounts.empty 1
    { client := 1, available := 500, held := 0, total := 500, locked := true })

/-- Concrete engine holding an already-disputed deposit and a second
dispute record for the same tx id. -/
def c5Engine : Engine :=
  { accounts := Accounts.set Accounts.empty 1
      { client := 1, available := 0, held := 100, total := 100, locked := false },
    transactions :=
      Transactions.fromList [{ dep 1 1 100 with disputed := true }, dsp 1 1],
    last_processed_transaction_index := 1 }

/-- Concrete engine holding a disputed deposit and a resolve record for
it, with the matching held balance. -/
def c6wEngine : Engine :=
  { accounts := Accounts.set Accounts.empty 1
      { client := 1, available := 0, held := 100, total := 100, locked := false },
    transactions :=
      Transactions.fromList [{ dep 1 1 100 with disputed := true }, rsv 1 1],
    last_processed_transaction_index := 1 }

/-- Batches with disjoint tx ids for the amended split-batch property. -/
def c2wA : List Transaction := [dep 1 1 100, dsp 1 1]

/-- Second batch with tx ids fresh for `c2wA`. -/
def c2wB : List Transaction := [dep 1 2 200, wdl 1 3 50]

/-- Record list where tx id 7 occurs only on a dispute record. -/
def c8Txs : List Transaction := [dsp 1 7, dep 1 3 100]

end ToyPayments

namespace ToyPayments

theorem Accounts.set_apply (a : Accounts) (c : Nat) (acc : Account) (x : Nat) :
    Accounts.set a c acc x = if x = c then some acc else a x := rfl

theorem Accounts.get_mut_snd (a : Accounts) (c : Nat) :
    (a.get_mut c).2 = (a c).getD (Account.new c) := by
  unfold Accounts.get_mut
  cases a c <;> rfl

theorem Accounts.get_mut_fst_apply (a : Accounts) (c x : Nat) :
    (a.get_mut c).1 x = if x = c then some ((a c).getD (Account.new c)) else a x := by
  unfold Accounts.get_mut
  cases h : a c with
  | none => rfl
  | some acc =>
      by_cases hx : x = c
      · subst hx; simp [h, Accounts.set]
      · simp [hx, Accounts.set]

theorem Engine.readAcc_def (e : Engine) (x : Nat) :
    e.readAcc x = (e.accounts x).getD (Account.new x) := rfl

theorem Accounts.get_mut_fst_readAcc (a : Accounts) (c x : Nat) :
    ((a.get_mut c).1 x).getD (Account.new x) = (a x).getD (Account.new x) := by
  rw [Accounts.get_mut_fst_apply]
  by_cases hx : x = c
  · subst hx; simp
  · simp [hx]

/-- `process_transaction` never touches another client's account. -/
theorem process_transaction_other (e : Engine) (i client x : Nat)
    (hx : x ≠ client) :
    (e.process_transaction i client).accounts x = e.accounts x := by
  simp only [Engine.process_transaction]
  repeat' split
  all_goals simp [Accounts.set_apply, Accounts.get_mut_fst_apply, hx]

/-- One processing step preserves the balance invariant of every
account. -/
theorem process_transaction_balanced (e : Engine) (i client : Nat)
    (h : ∀ x, balanced (e.readAcc x)) (x : Nat) :
    balanced ((e.process_transaction i client).readAcc x) := by
  by_cases hx : x = client
  · subst hx
    have hb := h x
    simp only [balanced, Engine.readAcc_def] at hb ⊢
    simp only [Engine.process_transaction]
    repeat' split
    all_goals
      simp only [Accounts.set_apply, Accounts.get_mut_fst_readAcc,
        Accounts.get_mut_snd, if_pos, Option.getD_some]
    all_goals try simp
    all_goals omega
  · rw [Engine.readAcc_def, process_transaction_other e i client x hx]
    exact h x

/-- A locked account is left exactly as it is by any processing step. -/
theorem process_transaction_locked (e : Engine) (i client x : Nat)
    (h : (e.readAcc x).locked = true) :
    (e.process_transaction i client).readAcc x = e.readAcc x := by
  by_cases hx : x = client
  · subst hx
    have hl : (e.accounts.get_mut x).2.locked = true := by
      rw [Accounts.get_mut_snd]; exact h
    simp only [Engine.process_transaction, hl, if_pos]
    simp only [Engine.readAcc_def, Accounts.get_mut_fst_readAcc]
  · rw [Engine.readAcc_def, process_transaction_other e i client x hx]
    rfl

/-- The cursor field is never written by a processing step. -/
theorem process_transaction_last (e : Engine) (i client : Nat) :
    (e.process_transaction i client).last_processed_transaction_index =
      e.last_processed_transaction_index := by
  simp only [Engine.process_transaction]
  repeat' split
  all_goals rfl

theorem Engine.readAcc_withLast (e : Engine) (n x : Nat) :
    ({ e with last_processed_transaction_index := n } : Engine).readAcc x =
      e.readAcc x := rfl

/-- The loop preserves the balance invariant. -/
theorem processLoop_balanced (fuel : Nat) :
    ∀ (e : Engine) (i : Nat), (∀ x, balanced (e.readAcc x)) →
      ∀ x, balanced ((e.processLoop i fuel).readAcc x) := by
  induction fuel with
  | zero => intro e i h x; exact h x
  | succ fuel ih =>
      intro e i h x
      simp only [Engine.processLoop]
      cases hg : e.transactions.get i with
      | none => simpa only [hg] using ih _ (i + 1) h x
      | some t =>
          simp only [hg]
          exact ih _ (i + 1) (process_transaction_balanced e i t.client h) x

/-- The loop leaves a locked account exactly as it is. -/
theorem processLoop_locked (fuel : Nat) :
    ∀ (e : Engine) (i x : Nat), (e.readAcc x).locked = true →
      (e.processLoop i fuel).readAcc x = e.readAcc x := by
  induction fuel with
  | zero => intro e i x _; rfl
  | succ fuel ih =>
      intro e i x h
      simp only [Engine.processLoop]
      cases hg : e.transactions.get i with
      | none => simpa only [hg] using ih _ (i + 1) x h
      | some t =>
          simp only [hg]
          rw [ih _ (i + 1) x, process_transaction_locked e i t.client x h]
          rw [process_transaction_locked e i t.client x h]
          exact h

/-- C1: for every input batch and every account, if every account
satisfies `total == available + held` before a call to `Engine::process`,
then every account satisfies it after the call returns (so it holds after
each call in any chain starting from any balanced account table, in
particular the empty one). -/
theorem C1_balance_invariant (e : Engine) (trxs : Transactions)
    (h : ∀ x, balanced (e.readAcc x)) :
    ∀ x, balanced ((e.process trxs).readAcc x) := by
  intro x
  simp only [Engine.process, Engine.readAcc_withLast]
  exact processLoop_balanced _
    { e with transactions := e.transactions.extend trxs } _ h x

/-- Witness for C1 at a concrete run. -/
theorem C1_balance_invariant_witness :
    balanced (((Engine.new Accounts.empty).process
      (Transactions.fromList [dep 1 1 100])).readAcc 1) :=
  C1_balance_invariant (Engine.new Accounts.empty)
    (Transactions.fromList [dep 1 1 100]) (fun _ => rfl) 1

/-- C4: once an account is locked, a whole `Engine::process` call (with
any batch, containing transactions of any kind) leaves that account
exactly unchanged, and it remains locked: no operation unsets the flag. -/
theorem C4_lock_permanence (e : Engine) (trxs : Transactions) (x : Nat)
    (h : (e.readAcc x).locked = true) :
    (e.process trxs).readAcc x = e.readAcc x ∧
    ((e.process trxs).readAcc x).locked = true := by
  have key : (e.process trxs).readAcc x = e.readAcc x := by
    simp only [Engine.process, Engine.readAcc_withLast]
    exact processLoop_locked _
      { e with transactions := e.transactions.extend trxs } _ x h
  exact ⟨key, key ▸ h⟩

/-- Witness for C4 at a concrete locked account. -/
theorem C4_lock_permanence_witness :
    (c4Engine.process (Transactions.fromList [wdl 1 1 100])).readAcc 1 =
      c4Engine.readAcc 1 ∧
    ((c4Engine.process (Transactions.fromList [wdl 1 1 100])).readAcc 1).locked =
      true :=
  C4_lock_permanence c4Engine (Transactions.fromList [wdl 1 1 100]) 1 (by decide)

theorem Engine.readAcc_get_mut (e : Engine) (c x : Nat) :
    ({ e with accounts := (e.accounts.get_mut c).1 } : Engine).readAcc x =
      e.readAcc x := by
  simp only [Engine.readAcc_def]
  exact Accounts.get_mut_fst_readAcc e.accounts c x

theorem Engine.readAcc_set_self (e : Engine) (A : Accounts) (c : Nat)
    (acc : Account) :
    ({ e with accounts := Accounts.set A c acc } : Engine).readAcc c = acc := by
  simp [Engine.readAcc_def, Accounts.set_apply]

/-- C3: a withdrawal record never drives the account's available balance
below zero; with insufficient funds the account is untouched by that
record, and an applied withdrawal (unlocked account, undisputed record,
amount present, sufficient funds) decreases available and total by
exactly the amount, leaving held unchanged. -/
theorem C3_withdrawal_no_negative (e : Engine) (i : Nat) (t : Transaction)
    (ht : e.transactions.get i = some t) (hw : t.type = TxType.Withdrawal) :
    (0 ≤ (e.readAcc t.client).available →
      0 ≤ ((e.process_transaction i t.client).readAcc t.client).available) ∧
    (∀ amt : Int, t.amount = some amt →
      (e.readAcc t.client).available < amt →
      (e.process_transaction i t.client).readAcc t.client = e.readAcc t.client) ∧
    (∀ amt : Int, t.amount = some amt →
      (e.readAcc t.client).locked = false → t.disputed = false →
      amt ≤ (e.readAcc t.client).available →
      ((e.process_transaction i t.client).readAcc t.client).available =
        (e.readAcc t.client).available - amt ∧
      ((e.process_transaction i t.client).readAcc t.client).total =
        (e.readAcc t.client).total - amt ∧
      ((e.process_transaction i t.client).readAcc t.client).held =
        (e.readAcc t.client).held) := by
  have hsnd : (e.accounts.get_mut t.client).2 = e.readAcc t.client :=
    Accounts.get_mut_snd e.accounts t.client
  simp only [Engine.process_transaction, ht, hw, hsnd]
  by_cases hl : (e.readAcc t.client).locked = true
  · rw [if_pos hl]
    refine ⟨fun h0 => ?_, fun amt _ _ => ?_, fun amt _ hlf _ _ => ?_⟩
    · rw [Engine.readAcc_get_mut]; exact h0
    · rw [Engine.readAcc_get_mut]
    · rw [hlf] at hl; simp at hl
  · rw [if_neg hl]
    cases hdm : t.disputed with
    | true =>
        simp only [hdm, Bool.not_true]
        rw [if_neg (by simp)]
        refine ⟨fun h0 => ?_, fun amt _ _ => ?_, fun amt _ _ hdf _ => ?_⟩
        · rw [Engine.readAcc_get_mut]; exact h0
        · rw [Engine.readAcc_get_mut]
        · simp at hdf
    | false =>
        simp only [hdm, Bool.not_false]
        rw [if_pos trivial]
        cases ham : t.amount with
        | none =>
            simp only []
            refine ⟨fun h0 => ?_, fun amt hsome _ => ?_, fun amt hsome _ _ _ => ?_⟩
            · rw [Engine.readAcc_get_mut]; exact h0
            · rw [Engine.readAcc_get_mut]
            · simp at hsome
        | some amount =>
            simp only []
            by_cases hcomp : (e.readAcc t.client).available < amount
            · rw [if_pos hcomp]
              refine ⟨fun h0 => ?_, fun amt hsome _ => ?_,
                fun amt hsome _ _ hle => ?_⟩
              · rw [Engine.readAcc_get_mut]; exact h0
              · rw [Engine.readAcc_get_mut]
              · injection hsome with h'; subst h'; omega
            · rw [if_neg hcomp]
              refine ⟨fun h0 => ?_, fun amt hsome hlt => ?_,
                fun amt hsome _ _ hle => ?_⟩
              · rw [Engine.readAcc_set_self]
                show 0 ≤ (e.readAcc t.client).available - amount
                omega
              · injection hsome with h'; subst h'; exact absurd hlt hcomp
              · injection hsome with h'; subst h'
                rw [Engine.readAcc_set_self]
                exact ⟨rfl, rfl, rfl⟩

/-- Witness for C3: an applied withdrawal of 0.01 against 0.05
available. -/
theorem C3_withdrawal_no_negative_witness :
    ((c3Engine.process_transaction 0 1).readAcc 1).available =
      (c3Engine.readAcc 1).available - 100 ∧
    ((c3Engine.process_transaction 0 1).readAcc 1).total =
      (c3Engine.readAcc 1).total - 100 ∧
    ((c3Engine.process_transaction 0 1).readAcc 1).held =
      (c3Engine.readAcc 1).held :=
  (C3_withdrawal_no_negative c3Engine 0 (wdl 1 1 100) (by decide) rfl).2.2
    100 rfl rfl rfl (by decide)

theorem Engine.readAcc_mk (a : Accounts) (ts : Transactions) (l x : Nat) :
    (Engine.mk a ts l).readAcc x = (a x).getD (Account.new x) := rfl

theorem Accounts.set_getD_self (A : Accounts) (c : Nat) (acc : Account) :
    (Accounts.set A c acc c).getD (Account.new c) = acc := by
  simp [Accounts.set_apply]

/-- C5: a dispute record whose target transaction is already disputed is
a complete no-op: every account is unchanged and the record store
(including the target's disputed flag) is unchanged. -/
theorem C5_double_dispute_noop (e : Engine) (i j : Nat) (t tgt : Transaction)
    (ht : e.transactions.get i = some t) (hk : t.type = TxType.Dispute)
    (hj : e.transactions.get_tx_mut t.tx = some (j, tgt))
    (hd : tgt.disputed = true) :
    (∀ c, (e.process_transaction i t.client).readAcc c = e.readAcc c) ∧
    (e.process_transaction i t.client).transactions = e.transactions := by
  have hsnd : (e.accounts.get_mut t.client).2 = e.readAcc t.client :=
    Accounts.get_mut_snd e.accounts t.client
  simp only [Engine.process_transaction, ht, hk, hsnd]
  by_cases hl : (e.readAcc t.client).locked = true
  · rw [if_pos hl]
    exact ⟨fun c => Engine.readAcc_get_mut e t.client c, by trivial⟩
  · rw [if_neg hl]
    simp only [hj]
    rw [if_pos hd]
    exact ⟨fun c => Engine.readAcc_get_mut e t.client c, by trivial⟩

/-- Witness for C5 at a concrete second dispute. -/
theorem C5_double_dispute_noop_witness :
    (c5Engine.process_transaction 1 1).readAcc 1 = c5Engine.readAcc 1 ∧
    (c5Engine.process_transaction 1 1).transactions = c5Engine.transactions :=
  ⟨(C5_double_dispute_noop c5Engine 1 0 (dsp 1 1)
      ({ dep 1 1 100 with disputed := true }) (by decide) rfl (by decide) rfl).1 1,
   (C5_double_dispute_noop c5Engine 1 0 (dsp 1 1)
      ({ dep 1 1 100 with disputed := true }) (by decide) rfl (by decide) rfl).2⟩

/-- C6 (amended): a resolve or chargeback whose target is absent or not
disputed is a complete no-op; when the account is additionally unlocked
and the lookup finds a disputed target carrying an amount, resolve moves
the amount from held back to available (clearing the target's disputed
flag) and chargeback removes it from held and total and locks the
account. -/
theorem C6_resolve_chargeback_amended (e : Engine) (i : Nat) (t : Transaction)
    (ht : e.transactions.get i = some t)
    (hk : t.type = TxType.Resolve ∨ t.type = TxType.Chargeback) :
    ((e.transactions.get_tx_mut t.tx = none ∨
        ∃ j tgt, e.transactions.get_tx_mut t.tx = some (j, tgt) ∧
          tgt.disputed = false) →
      (∀ c, (e.process_transaction i t.client).readAcc c = e.readAcc c) ∧
      (e.process_transaction i t.client).transactions = e.transactions) ∧
    (∀ (j : Nat) (tgt : Transaction) (amt : Int),
      e.transactions.get_tx_mut t.tx = some (j, tgt) → tgt.disputed = true →
      tgt.amount = some amt → (e.readAcc t.client).locked = false →
      (t.type = TxType.Resolve →
        ((e.process_transaction i t.client).readAcc t.client).available =
          (e.readAcc t.client).available + amt ∧
        ((e.process_transaction i t.client).readAcc t.client).held =
          (e.readAcc t.client).held - amt ∧
        ((e.process_transaction i t.client).readAcc t.client).total =
          (e.readAcc t.client).total ∧
        (e.process_transaction i t.client).transactions =
          e.transactions.setAt j { tgt with disputed := false }) ∧
      (t.type = TxType.Chargeback →
        ((e.process_transaction i t.client).readAcc t.client).held =
          (e.readAcc t.client).held - amt ∧
        ((e.process_transaction i t.client).readAcc t.client).total =
          (e.readAcc t.client).total - amt ∧
        ((e.process_transaction i t.client).readAcc t.client).locked = true ∧
        (e.process_transaction i t.client).transactions = e.transactions)) := by
  have hsnd : (e.accounts.get_mut t.client).2 = e.readAcc t.client :=
    Accounts.get_mut_snd e.accounts t.client
  cases hk with
  | inl hres =>
      simp only [Engine.process_transaction, ht, hres, hsnd]
      by_cases hl : (e.readAcc t.client).locked = true
      · rw [if_pos hl]
        constructor
        · intro _
          exact ⟨fun c => Engine.readAcc_get_mut e t.client c, by trivial⟩
        · intro j tgt amt _ _ _ hlf
          rw [hlf] at hl; simp at hl
      · rw [if_neg hl]
        constructor
        · intro habs
          cases habs with
          | inl hnone =>
              simp only [hnone]
              exact ⟨fun c => Engine.readAcc_get_mut e t.client c, by trivial⟩
          | inr hex =>
              obtain ⟨j, tgt, hj, hdf⟩ := hex
              simp only [hj]
              rw [hdf, if_neg (by simp)]
              exact ⟨fun c => Engine.readAcc_get_mut e t.client c, by trivial⟩
        · intro j tgt amt hj hdt hamt _
          simp only [hj]
          rw [if_pos hdt]
          simp only [hamt]
          constructor
          · intro _
            simp [Engine.readAcc_mk, Accounts.set_getD_self]
          · intro hcb
            exact absurd hcb (by decide)
  | inr hcb =>
      simp only [Engine.process_transaction, ht, hcb, hsnd]
      by_cases hl : (e.readAcc t.client).locked = true
      · rw [if_pos hl]
        constructor
        · intro _
          exact ⟨fun c => Engine.readAcc_get_mut e t.client c, by trivial⟩
        · intro j tgt amt _ _ _ hlf
          rw [hlf] at hl; simp at hl
      · rw [if_neg hl]
        constructor
        · intro habs
          cases habs with
          | inl hnone =>
              simp only [hnone]
              exact ⟨fun c => Engine.readAcc_get_mut e t.client c, by trivial⟩
          | inr hex =>
              obtain ⟨j, tgt, hj, hdf⟩ := hex
              simp only [hj]
              rw [hdf, if_neg (by simp)]
              exact ⟨fun c => Engine.readAcc_get_mut e t.client c, by trivial⟩
        · intro j tgt amt hj hdt hamt _
          simp only [hj]
          rw [if_pos hdt]
          simp only [hamt]
          constructor
          · intro hres
            exact absurd hres (by decide)
          · intro _
            simp [Engine.readAcc_mk, Accounts.set_getD_self]

/-- Witness for the amended C6: a successful resolve of a disputed
deposit of 0.01. -/
theorem C6_resolve_chargeback_amended_witness :
    ((c6wEngine.process_transaction 1 1).readAcc 1).available =
      (c6wEngine.readAcc 1).available + 100 ∧
    ((c6wEngine.process_transaction 1 1).readAcc 1).held =
      (c6wEngine.readAcc 1).held - 100 ∧
    ((c6wEngine.process_transaction 1 1).readAcc 1).total =
      (c6wEngine.readAcc 1).total ∧
    (c6wEngine.process_transaction 1 1).transactions =
      c6wEngine.transactions.setAt 0
        { dep 1 1 100 with disputed := false } :=
  ((C6_resolve_chargeback_amended c6wEngine 1 (rsv 1 1) (by decide)
      (Or.inl rfl)).2 0 ({ dep 1 1 100 with disputed := true }) 100
      (by decide) rfl rfl (by decide)).1 rfl

theorem lastOcc_some_spec (txs : List Transaction) (k : Nat) :
    ∀ j, lastOcc txs k = some j →
      j < txs.length ∧
        ∃ t, txs[j]? = some t ∧ isIndexed t = true ∧ t.tx = k := by
  induction txs with
  | nil => intro j h; simp [lastOcc] at h
  | cons t rest ih =>
      intro j h
      simp only [lastOcc] at h
      cases hr : lastOcc rest k with
      | some j2 =>
          rw [hr] at h
          injection h with h
          subst h
          obtain ⟨hlt, t', ht', hi, hk⟩ := ih j2 hr
          refine ⟨by simpa using Nat.succ_lt_succ hlt, t', ?_, hi, hk⟩
          simpa using ht'
      | none =>
          rw [hr] at h
          by_cases hc : isIndexed t = true ∧ t.tx = k
          · rw [if_pos hc] at h
            injection h with h
            subst h
            exact ⟨Nat.succ_pos _, t, by simp, hc.1, hc.2⟩
          · rw [if_neg hc] at h
            cases h

theorem lastOcc_none (txs : List Transaction) (k : Nat) :
    lastOcc txs k = none →
      ∀ (j : Nat) (t : Transaction), txs[j]? = some t →
        isIndexed t = true → t.tx ≠ k := by
  induction txs with
  | nil => intro _ j t hj; simp at hj
  | cons t rest ih =>
      intro h j t' hj hi
      simp only [lastOcc] at h
      cases hr : lastOcc rest k with
      | some j2 => rw [hr] at h; cases h
      | none =>
          rw [hr] at h
          by_cases hc : isIndexed t = true ∧ t.tx = k
          · rw [if_pos hc] at h; cases h
          · cases j with
            | zero =>
                simp only [List.getElem?_cons_zero] at hj
                injection hj with hj
                subst hj
                intro hk
                exact hc ⟨hi, hk⟩
            | succ j2 =>
                exact ih hr j2 t' (by simpa using hj) hi

theorem lastOcc_is_last (txs : List Transaction) (k : Nat) :
    ∀ j, lastOcc txs k = some j →
      ∀ j' t', j < j' → txs[j']? = some t' → isIndexed t' = true →
        t'.tx ≠ k := by
  induction txs with
  | nil => intro j h; simp [lastOcc] at h
  | cons t rest ih =>
      intro j h j' t' hlt hj' hi
      simp only [lastOcc] at h
      cases hr : lastOcc rest k with
      | some j2 =>
          rw [hr] at h
          injection h with h
          subst h
          cases j' with
          | zero => omega
          | succ j2' =>
              exact ih j2 hr j2' t' (by omega) (by simpa using hj') hi
      | none =>
          rw [hr] at h
          by_cases hc : isIndexed t = true ∧ t.tx = k
          · rw [if_pos hc] at h
            injection h with h
            subst h
            cases j' with
            | zero => omega
            | succ j2' =>
                exact lastOcc_none rest k hr j2' t' (by simpa using hj') hi
          · rw [if_neg hc] at h
            cases h

theorem populate_go_eq (txs : List Transaction) :
    ∀ (i : Nat) (m : Nat → Option Nat) (k : Nat),
      populate_go i txs m k =
        match lastOcc txs k with
        | some j => some (i + j)
        | none => m k := by
  induction txs with
  | nil => intro i m k; rfl
  | cons t rest ih =>
      intro i m k
      simp only [populate_go, lastOcc]
      rw [ih]
      cases hr : lastOcc rest k with
      | some j =>
          simp only [Option.some.injEq]
          omega
      | none =>
          simp only []
          by_cases hI : isIndexed t = true
          · rw [if_pos hI]
            by_cases hk : t.tx = k
            · rw [if_pos ⟨hI, hk⟩]
              simp [mapInsert, hk.symm]
            · rw [if_neg (fun hq => hk hq.2)]
              have : ¬(k = t.tx) := fun hq => hk hq.symm
              simp [mapInsert, this]
          · rw [if_neg (by simpa using hI), if_neg (fun hq => hI hq.1)]

theorem fromList_map (l : List Transaction) (k : Nat) :
    (Transactions.fromList l).tx_index_map k = lastOcc l k := by
  simp only [Transactions.fromList, Transactions.populate_map]
  rw [populate_go_eq]
  cases lastOcc l k <;> simp

/-- C8: after indexing, the tx-id index maps `k` to position `i` exactly
when `i` carries a deposit/withdrawal record with tx id `k` and no later
position does (last occurrence wins among duplicates); and a tx id
carried only by dispute/resolve/chargeback records is never indexed, so
`get_tx_mut` returns absent for it. -/
theorem C8_last_occurrence_index (txs : List Transaction) (k : Nat) :
    (∀ i, (Transactions.fromList txs).tx_index_map k = some i ↔
      ((∃ t, txs[i]? = some t ∧ isIndexed t = true ∧ t.tx = k) ∧
        ∀ j t', i < j → txs[j]? = some t' → isIndexed t' = true →
          t'.tx ≠ k)) ∧
    ((∀ t ∈ txs, isIndexed t = true → t.tx ≠ k) →
      (Transactions.fromList txs).get_tx_mut k = none) := by
  constructor
  · intro i
    rw [fromList_map]
    constructor
    · intro h
      obtain ⟨hlt, t, ht, hi, hk⟩ := lastOcc_some_spec txs k i h
      exact ⟨⟨t, ht, hi, hk⟩,
        fun j t' hij hj' hi' => lastOcc_is_last txs k i h j t' hij hj' hi'⟩
    · rintro ⟨⟨t, ht, hi, hk⟩, hmax⟩
      cases hv : lastOcc txs k with
      | none => exact absurd hk (lastOcc_none txs k hv i t ht hi)
      | some i' =>
          obtain ⟨hlt', t', ht', hi', hk'⟩ := lastOcc_some_spec txs k i' hv
          rcases Nat.lt_trichotomy i i' with hii | hii | hii
          · exact absurd hk' (hmax i' t' hii ht' hi')
          · rw [hii]
          · exact absurd hk (lastOcc_is_last txs k i' hv i t hii ht hi)
  · intro h
    have hnone : lastOcc txs k = none := by
      cases hv : lastOcc txs k with
      | none => rfl
      | some i' =>
          obtain ⟨hlt, t, ht, hi, hk⟩ := lastOcc_some_spec txs k i' hv
          exact absurd hk (h t (List.getElem?_mem ht) hi)
    simp [Transactions.get_tx_mut, fromList_map, hnone]

/-- Witness for C8: tx id 7 occurs only on a dispute record, so it is
never indexed. -/
theorem C8_last_occurrence_index_witness :
    (Transactions.fromList c8Txs).get_tx_mut 7 = none :=
  (C8_last_occurrence_index c8Txs 7).2 (by decide)

theorem lastOcc_append (xs ys : List Transaction) (k : Nat) :
    lastOcc (xs ++ ys) k =
      match lastOcc ys k with
      | some j => some (xs.length + j)
      | none => lastOcc xs k := by
  induction xs with
  | nil =>
      simp only [List.nil_append, List.length_nil]
      cases lastOcc ys k with
      | some j => simp
      | none => simp [lastOcc]
  | cons t rest ih =>
      have ih' : lastOcc (rest.append ys) k =
          match lastOcc ys k with
          | some j => some (rest.length + j)
          | none => lastOcc rest k := ih
      simp only [List.cons_append, lastOcc, ih']
      cases hr : lastOcc ys k with
      | some j =>
          simp only [List.length_cons, Option.some.injEq]
          omega
      | none =>
          simp only []

theorem shape_tx (t t' : Transaction) (h : shape t = shape t') :
    t.tx = t'.tx := by
  simp only [shape, Prod.mk.injEq] at h
  exact h.2.2.1

theorem shape_isIndexed (t t' : Transaction) (h : shape t = shape t') :
    isIndexed t = isIndexed t' := by
  simp only [shape, Prod.mk.injEq] at h
  simp [isIndexed, h.1]

theorem lastOcc_shape (l₁ l₂ : List Transaction)
    (h : l₁.map shape = l₂.map shape) (k : Nat) :
    lastOcc l₁ k = lastOcc l₂ k := by
  induction l₁ generalizing l₂ with
  | nil =>
      cases l₂ with
      | nil => rfl
      | cons t rest => simp at h
  | cons t rest ih =>
      cases l₂ with
      | nil => simp at h
      | cons t' rest' =>
          simp only [List.map_cons, List.cons.injEq] at h
          obtain ⟨h1, h2⟩ := h
          simp only [lastOcc, ih rest' h2, shape_isIndexed t t' h1,
            shape_tx t t' h1]

theorem mapOf_shape (l₁ l₂ : List Transaction)
    (h : l₁.map shape = l₂.map shape) : mapOf l₁ = mapOf l₂ :=
  funext fun k => lastOcc_shape l₁ l₂ h k

theorem list_set_self {α : Type} (l : List α) :
    ∀ (i : Nat) (a : α), l[i]? = some a → l.set i a = l := by
  induction l with
  | nil => intro i a h; simp at h
  | cons x rest ih =>
      intro i a h
      cases i with
      | zero =>
          simp only [List.getElem?_cons_zero] at h
          injection h with h
          rw [List.set_cons_zero, h]
      | succ i =>
          simp only [List.getElem?_cons_succ] at h
          rw [List.set_cons_succ, ih i a h]

theorem map_shape_set (l : List Transaction) (j : Nat) (tgt : Transaction)
    (b : Bool) (hj : l[j]? = some tgt) :
    (l.set j { tgt with disputed := b }).map shape = l.map shape := by
  rw [List.map_set]
  have hs : shape { tgt with disputed := b } = shape tgt := rfl
  rw [hs]
  apply list_set_self
  rw [List.getElem?_map, hj]
  rfl

theorem shape_mem_tx (P A : List Transaction)
    (h : P.map shape = A.map shape) (i : Nat) (t : Transaction)
    (ht : P[i]? = some t) : ∃ a ∈ A, a.tx = t.tx := by
  have hP : (P.map shape)[i]? = some (shape t) := by
    rw [List.getElem?_map, ht]; rfl
  rw [h, List.getElem?_map] at hP
  cases ha : A[i]? with
  | none => rw [ha] at hP; cases hP
  | some a =>
      rw [ha] at hP
      injection hP with hs
      exact ⟨a, List.getElem?_mem ha, (shape_tx a t hs)⟩

theorem mapOf_append_eq (A B : List Transaction) (k : Nat)
    (hk : ∃ a ∈ A, a.tx = k)
    (H : ∀ b ∈ B, isIndexed b = true → ∀ a ∈ A, b.tx ≠ a.tx) :
    mapOf (A ++ B) k = mapOf A k := by
  simp only [mapOf]
  rw [lastOcc_append]
  cases hB : lastOcc B k with
  | none => rfl
  | some j =>
      obtain ⟨hlt, b, hbj, hbi, hbk⟩ := lastOcc_some_spec B k j hB
      obtain ⟨a, haA, hak⟩ := hk
      exact absurd (hbk.trans hak.symm)
        (H b (List.getElem?_mem hbj) hbi a haA)

theorem populate_go_mapOf (l : List Transaction) (m : Nat → Option Nat)
    (hm : ∀ k, lastOcc l k = none → m k = none) :
    populate_go 0 l m = mapOf l := by
  funext k
  rw [populate_go_eq]
  cases hv : lastOcc l k with
  | some j => simp [mapOf, hv]
  | none => simp [mapOf, hv, hm k hv]

/-- One step of the processing loop at a position inside the first batch
behaves identically whether the second batch is already appended or not,
provided the second batch's deposit/withdrawal records introduce no tx id
already carried by a record of the first batch: the store prefix mutates
the same way and the accounts mutate the same way. -/
theorem phaseA_step (A B P : List Transaction) (acc : Accounts)
    (cl cc : Nat) (i : Nat) (hi : i < A.length) (client : Nat)
    (hshape : P.map shape = A.map shape)
    (H : ∀ b ∈ B, isIndexed b = true → ∀ a ∈ A, b.tx ≠ a.tx) :
    ∃ (P' : List Transaction) (acc' : Accounts),
      P'.map shape = A.map shape ∧
      Engine.process_transaction ⟨acc, ⟨P, mapOf A⟩, cl⟩ i client =
        ⟨acc', ⟨P', mapOf A⟩, cl⟩ ∧
      Engine.process_transaction ⟨acc, ⟨P ++ B, mapOf (A ++ B)⟩, cc⟩ i client =
        ⟨acc', ⟨P' ++ B, mapOf (A ++ B)⟩, cc⟩ := by
  have hlenP : P.length = A.length := by
    have h := congrArg List.length hshape
    simpa using h
  have hiP : i < P.length := by omega
  obtain ⟨t, hti⟩ : ∃ t, P[i]? = some t :=
    ⟨P[i], List.getElem?_eq_getElem hiP⟩
  have hget1 : Transactions.get ⟨P, mapOf A⟩ i = some t := hti
  have hget2 : Transactions.get ⟨P ++ B, mapOf (A ++ B)⟩ i = some t := by
    show (P ++ B)[i]? = some t
    rw [List.getElem?_append_left hiP]
    exact hti
  simp only [Engine.process_transaction, hget1, hget2]
  by_cases hl : (acc.get_mut client).2.locked = true
  · simp only [if_pos hl]
    exact ⟨P, (acc.get_mut client).1, hshape, rfl, rfl⟩
  · simp only [if_neg hl]
    cases htt : t.type with
    | Deposit =>
        cases hdm : t.disputed with
        | true =>
            simp only [Bool.not_true]
            rw [if_neg (by simp), if_neg (by simp)]
            exact ⟨P, _, hshape, rfl, rfl⟩
        | false =>
            simp only [Bool.not_false]
            rw [if_pos trivial, if_pos trivial]
            cases ham : t.amount with
            | none => exact ⟨P, _, hshape, rfl, rfl⟩
            | some amount => exact ⟨P, _, hshape, rfl, rfl⟩
    | Withdrawal =>
        cases hdm : t.disputed with
        | true =>
            simp only [Bool.not_true]
            rw [if_neg (by simp), if_neg (by simp)]
            exact ⟨P, _, hshape, rfl, rfl⟩
        | false =>
            simp only [Bool.not_false]
            rw [if_pos trivial, if_pos trivial]
            cases ham : t.amount with
            | none => exact ⟨P, _, hshape, rfl, rfl⟩
            | some amount =>
                simp only []
                by_cases hcomp : (acc.get_mut client).2.available < amount
                · rw [if_pos hcomp, if_pos hcomp]
                  exact ⟨P, _, hshape, rfl, rfl⟩
                · rw [if_neg hcomp, if_neg hcomp]
                  exact ⟨P, _, hshape, rfl, rfl⟩
    | Dispute =>
        have hmem : ∃ a ∈ A, a.tx = t.tx := shape_mem_tx P A hshape i t hti
        have hmap : mapOf (A ++ B) t.tx = mapOf A t.tx :=
          mapOf_append_eq A B t.tx hmem H
        cases hm : mapOf A t.tx with
        | none =>
            have h1 : Transactions.get_tx_mut ⟨P, mapOf A⟩ t.tx = none := by
              simp [Transactions.get_tx_mut, hm]
            have h2 : Transactions.get_tx_mut ⟨P ++ B, mapOf (A ++ B)⟩ t.tx =
                none := by
              simp [Transactions.get_tx_mut, hmap, hm]
            simp only [h1, h2]
            exact ⟨P, _, hshape, rfl, rfl⟩
        | some j =>
            have hjA : j < A.length := (lastOcc_some_spec A t.tx j hm).1
            have hjP : j < P.length := by omega
            obtain ⟨tgt, htgt⟩ : ∃ tgt, P[j]? = some tgt :=
              ⟨P[j], List.getElem?_eq_getElem hjP⟩
            have htgt2 : (P ++ B)[j]? = some tgt := by
              rw [List.getElem?_append_left hjP]
              exact htgt
            have h1 : Transactions.get_tx_mut ⟨P, mapOf A⟩ t.tx =
                some (j, tgt) := by
              simp only [Transactions.get_tx_mut, hm]
              show (match P[j]? with
                | some t => some (j, t)
                | none => none) = some (j, tgt)
              rw [htgt]
            have h2 : Transactions.get_tx_mut ⟨P ++ B, mapOf (A ++ B)⟩ t.tx =
                some (j, tgt) := by
              simp only [Transactions.get_tx_mut, hmap, hm]
              show (match (P ++ B)[j]? with
                | some t => some (j, t)
                | none => none) = some (j, tgt)
              rw [htgt2]
            simp only [h1, h2]
            by_cases hd : tgt.disputed = true
            · rw [if_pos hd, if_pos hd]
              exact ⟨P, _, hshape, rfl, rfl⟩
            · rw [if_neg hd, if_neg hd]
              cases ham : tgt.amount with
              | none => exact ⟨P, _, hshape, rfl, rfl⟩
              | some amount =>
                  have hrec : ({ tgt with disputed := true } : Transaction) =
                      { type := tgt.type, client := tgt.client, tx := tgt.tx,
                        amount := some amount, disputed := true } := by rw [ham]
                  have hset : (P ++ B).set j ({ tgt with disputed := true }) =
                      (P.set j ({ tgt with disputed := true })) ++ B :=
                    List.set_append_left _ _ hjP
                  rw [hrec] at hset
                  refine ⟨P.set j ({ tgt with disputed := true }),
                    Accounts.set (acc.get_mut client).1 client
                      { (acc.get_mut client).2 with
                          available := (acc.get_mut client).2.available - amount,
                          held := (acc.get_mut client).2.held + amount },
                    (map_shape_set P j tgt true htgt).trans hshape, ?_, ?_⟩
                  · rw [hrec]; exact rfl
                  · rw [hrec]
                    simp only [Transactions.setAt, hset]
    | Resolve =>
        have hmem : ∃ a ∈ A, a.tx = t.tx := shape_mem_tx P A hshape i t hti
        have hmap : mapOf (A ++ B) t.tx = mapOf A t.tx :=
          mapOf_append_eq A B t.tx hmem H
        cases hm : mapOf A t.tx with
        | none =>
            have h1 : Transactions.get_tx_mut ⟨P, mapOf A⟩ t.tx = none := by
              simp [Transactions.get_tx_mut, hm]
            have h2 : Transactions.get_tx_mut ⟨P ++ B, mapOf (A ++ B)⟩ t.tx =
                none := by
              simp [Transactions.get_tx_mut, hmap, hm]
            simp only [h1, h2]
            exact ⟨P, _, hshape, rfl, rfl⟩
        | some j =>
            have hjA : j < A.length := (lastOcc_some_spec A t.tx j hm).1
            have hjP : j < P.length := by omega
            obtain ⟨tgt, htgt⟩ : ∃ tgt, P[j]? = some tgt :=
              ⟨P[j], List.getElem?_eq_getElem hjP⟩
            have htgt2 : (P ++ B)[j]? = some tgt := by
              rw [List.getElem?_append_left hjP]
              exact htgt
            have h1 : Transactions.get_tx_mut ⟨P, mapOf A⟩ t.tx =
                some (j, tgt) := by
              simp only [Transactions.get_tx_mut, hm]
              show (match P[j]? with
                | some t => some (j, t)
                | none => none) = some (j, tgt)
              rw [htgt]
            have h2 : Transactions.get_tx_mut ⟨P ++ B, mapOf (A ++ B)⟩ t.tx =
                some (j, tgt) := by
              simp only [Transactions.get_tx_mut, hmap, hm]
              show (match (P ++ B)[j]? with
                | some t => some (j, t)
                | none => none) = some (j, tgt)
              rw [htgt2]
            simp only [h1, h2]
            by_cases hd : tgt.disputed = true
            · rw [if_pos hd, if_pos hd]
              cases ham : tgt.amount with
              | none => exact ⟨P, _, hshape, rfl, rfl⟩
              | some amount =>
                  have hrec : ({ tgt with disputed := false } : Transaction) =
                      { type := tgt.type, client := tgt.client, tx := tgt.tx,
                        amount := some amount, disputed := false } := by rw [ham]
                  have hset : (P ++ B).set j ({ tgt with disputed := false }) =
                      (P.set j ({ tgt with disputed := false })) ++ B :=
                    List.set_append_left _ _ hjP
                  rw [hrec] at hset
                  refine ⟨P.set j ({ tgt with disputed := false }),
                    Accounts.set (acc.get_mut client).1 client
                      { (acc.get_mut client).2 with
                          available := (acc.get_mut client).2.available + amount,
                          held := (acc.get_mut client).2.held - amount },
                    (map_shape_set P j tgt false htgt).trans hshape, ?_, ?_⟩
                  · rw [hrec]; exact rfl
                  · rw [hrec]
                    simp only [Transactions.setAt, hset]
            · rw [if_neg hd, if_neg hd]
              exact ⟨P, _, hshape, rfl, rfl⟩
    | Chargeback =>
        have hmem : ∃ a ∈ A, a.tx = t.tx := shape_mem_tx P A hshape i t hti
        have hmap : mapOf (A ++ B) t.tx = mapOf A t.tx :=
          mapOf_append_eq A B t.tx hmem H
        cases hm : mapOf A t.tx with
        | none =>
            have h1 : Transactions.get_tx_mut ⟨P, mapOf A⟩ t.tx = none := by
              simp [Transactions.get_tx_mut, hm]
            have h2 : Transactions.get_tx_mut ⟨P ++ B, mapOf (A ++ B)⟩ t.tx =
                none := by
              simp [Transactions.get_tx_mut, hmap, hm]
            simp only [h1, h2]
            exact ⟨P, _, hshape, rfl, rfl⟩
        | some j =>
            have hjA : j < A.length := (lastOcc_some_spec A t.tx j hm).1
            have hjP : j < P.length := by omega
            obtain ⟨tgt, htgt⟩ : ∃ tgt, P[j]? = some tgt :=
              ⟨P[j], List.getElem?_eq_getElem hjP⟩
            have htgt2 : (P ++ B)[j]? = some tgt := by
              rw [List.getElem?_append_left hjP]
              exact htgt
            have h1 : Transactions.get_tx_mut ⟨P, mapOf A⟩ t.tx =
                some (j, tgt) := by
              simp only [Transactions.get_tx_mut, hm]
              show (match P[j]? with
                | some t => some (j, t)
                | none => none) = some (j, tgt)
              rw [htgt]
            have h2 : Transactions.get_tx_mut ⟨P ++ B, mapOf (A ++ B)⟩ t.tx =
                some (j, tgt) := by
              simp only [Transactions.get_tx_mut, hmap, hm]
              show (match (P ++ B)[j]? with
                | some t => some (j, t)
                | none => none) = some (j, tgt)
              rw [htgt2]
            simp only [h1, h2]
            by_cases hd : tgt.disputed = true
            · rw [if_pos hd, if_pos hd]
              cases ham : tgt.amount with
              | none => exact ⟨P, _, hshape, rfl, rfl⟩
              | some amount => exact ⟨P, _, hshape, rfl, rfl⟩
            · rw [if_neg hd, if_neg hd]
              exact ⟨P, _, hshape, rfl, rfl⟩

theorem processLoop_add (f1 : Nat) :
    ∀ (e : Engine) (i f2 : Nat),
      e.processLoop i (f1 + f2) = (e.processLoop i f1).processLoop (i + f1) f2 := by
  induction f1 with
  | zero =>
      intro e i f2
      rw [Nat.zero_add, Nat.add_zero]
      rfl
  | succ f1 ih =>
      intro e i f2
      have hf : f1 + 1 + f2 = (f1 + f2) + 1 := by omega
      rw [hf]
      simp only [Engine.processLoop]
      rw [ih]
      have hidx : i + 1 + f1 = i + (f1 + 1) := by omega
      rw [hidx]

theorem process_transaction_cursor (acc : Accounts) (ts : Transactions)
    (c1 c2 i client : Nat) :
    Engine.process_transaction ⟨acc, ts, c1⟩ i client =
      { Engine.process_transaction ⟨acc, ts, c2⟩ i client with
        last_processed_transaction_index := c1 } := by
  simp only [Engine.process_transaction]
  repeat' split
  all_goals rfl

theorem processLoop_cursor (fuel : Nat) :
    ∀ (acc : Accounts) (ts : Transactions) (c1 c2 i : Nat),
      Engine.processLoop ⟨acc, ts, c1⟩ i fuel =
        { Engine.processLoop ⟨acc, ts, c2⟩ i fuel with
          last_processed_transaction_index := c1 } := by
  induction fuel with
  | zero => intro acc ts c1 c2 i; rfl
  | succ fuel ih =>
      intro acc ts c1 c2 i
      simp only [Engine.processLoop]
      cases hg : ts.get i with
      | none =>
          simp only [hg]
          exact ih acc ts c1 c2 (i + 1)
      | some t =>
          simp only [hg]
          rw [process_transaction_cursor acc ts c1 c2 i t.client]
          generalize hEg : Engine.process_transaction ⟨acc, ts, c2⟩ i t.client = E
          have hElast : E.last_processed_transaction_index = c2 := by
            rw [← hEg]
            exact process_transaction_last ⟨acc, ts, c2⟩ i t.client
          obtain ⟨a2, ts2, l2⟩ := E
          simp only at hElast
          subst hElast
          exact ih a2 ts2 c1 l2 (i + 1)

theorem phaseA_loop (A B : List Transaction)
    (H : ∀ b ∈ B, isIndexed b = true → ∀ a ∈ A, b.tx ≠ a.tx) :
    ∀ (fuel i : Nat), i + fuel ≤ A.length →
      ∀ (P : List Transaction) (acc : Accounts) (cl cc : Nat),
        P.map shape = A.map shape →
        ∃ (P' : List Transaction) (acc' : Accounts),
          P'.map shape = A.map shape ∧
          Engine.processLoop ⟨acc, ⟨P, mapOf A⟩, cl⟩ i fuel =
            ⟨acc', ⟨P', mapOf A⟩, cl⟩ ∧
          Engine.processLoop ⟨acc, ⟨P ++ B, mapOf (A ++ B)⟩, cc⟩ i fuel =
            ⟨acc', ⟨P' ++ B, mapOf (A ++ B)⟩, cc⟩ := by
  intro fuel
  induction fuel with
  | zero => intro i _ P acc cl cc hshape; exact ⟨P, acc, hshape, rfl, rfl⟩
  | succ fuel ih =>
      intro i hile P acc cl cc hshape
      have hi : i < A.length := by omega
      have hlenP : P.length = A.length := by
        have h := congrArg List.length hshape
        simpa using h
      have hiP : i < P.length := by omega
      obtain ⟨t, hti⟩ : ∃ t, P[i]? = some t :=
        ⟨P[i], List.getElem?_eq_getElem hiP⟩
      have hget1 : Transactions.get ⟨P, mapOf A⟩ i = some t := hti
      have hget2 : Transactions.get ⟨P ++ B, mapOf (A ++ B)⟩ i = some t := by
        show (P ++ B)[i]? = some t
        rw [List.getElem?_append_left hiP]
        exact hti
      simp only [Engine.processLoop, hget1, hget2]
      obtain ⟨P1, acc1, hs1, he1, he2⟩ :=
        phaseA_step A B P acc cl cc i hi t.client hshape H
      rw [he1, he2]
      exact ih (i + 1) (by omega) P1 acc1 cl cc hs1

theorem process_new_eq (acc0 : Accounts) (L : List Transaction) :
    (Engine.new acc0).process (Transactions.fromList L) =
      { Engine.processLoop ⟨acc0, ⟨L, mapOf L⟩, 0⟩ 0 L.length with
        last_processed_transaction_index :=
          (Engine.processLoop ⟨acc0, ⟨L, mapOf L⟩, 0⟩ 0 L.length).transactions.len } := by
  have hmap : populate_go 0 L (fun _ => none) = mapOf L :=
    populate_go_mapOf L (fun _ => none) (fun k _ => rfl)
  simp only [Engine.process, Engine.new, Transactions.extend, Transactions.default,
    Transactions.fromList, Transactions.populate_map, Transactions.len,
    List.nil_append, Nat.sub_zero, hmap]

/-- C2 (amended): processing batch A then batch B from a fresh engine
yields the same final engine state as processing A ++ B in one call,
provided no deposit/withdrawal record of B carries a tx id that already
occurs on a record of A (without that condition the rebuilt index can
retarget a dispute in A at a record of B). -/
theorem C2_split_batch_amended (acc0 : Accounts) (A B : List Transaction)
    (H : ∀ b ∈ B, isIndexed b = true → ∀ a ∈ A, b.tx ≠ a.tx) :
    ((Engine.new acc0).process (Transactions.fromList A)).process
        (Transactions.fromList B) =
      (Engine.new acc0).process (Transactions.fromList (A ++ B)) := by
  obtain ⟨P1, acc1, hs1, he1, he2⟩ :=
    phaseA_loop A B H A.length 0 (by omega) A acc0 0 0 rfl
  have hlen1 : P1.length = A.length := by
    have h := congrArg List.length hs1
    simpa using h
  have hshapePB : (P1 ++ B).map shape = (A ++ B).map shape := by
    simp only [List.map_append, hs1]
  have hmapPB : populate_go 0 (P1 ++ B) (mapOf A) = mapOf (A ++ B) := by
    have h1 : populate_go 0 (P1 ++ B) (mapOf A) = mapOf (P1 ++ B) := by
      apply populate_go_mapOf
      intro k hk
      have hk2 : lastOcc (A ++ B) k = none := by
        rw [← lastOcc_shape (P1 ++ B) (A ++ B) hshapePB k]
        exact hk
      rw [lastOcc_append] at hk2
      cases hB : lastOcc B k with
      | some j => rw [hB] at hk2; cases hk2
      | none => rw [hB] at hk2; exact hk2
    rw [h1]
    exact mapOf_shape (P1 ++ B) (A ++ B) hshapePB
  have hL1 : (Engine.new acc0).process (Transactions.fromList A) =
      ⟨acc1, ⟨P1, mapOf A⟩, P1.length⟩ := by
    rw [process_new_eq, he1]
    exact rfl
  have hL2 : (⟨acc1, ⟨P1, mapOf A⟩, P1.length⟩ : Engine).process
      (Transactions.fromList B) =
      { Engine.processLoop ⟨acc1, ⟨P1 ++ B, mapOf (A ++ B)⟩, P1.length⟩
          P1.length B.length with
        last_processed_transaction_index :=
          (Engine.processLoop ⟨acc1, ⟨P1 ++ B, mapOf (A ++ B)⟩, P1.length⟩
            P1.length B.length).transactions.len } := by
    simp only [Engine.process, Transactions.extend, Transactions.populate_map,
      Transactions.fromList, Transactions.len, hmapPB, List.length_append,
      Nat.add_sub_cancel_left]
  have hC : (Engine.new acc0).process (Transactions.fromList (A ++ B)) =
      { Engine.processLoop ⟨acc1, ⟨P1 ++ B, mapOf (A ++ B)⟩, 0⟩
          A.length B.length with
        last_processed_transaction_index :=
          (Engine.processLoop ⟨acc1, ⟨P1 ++ B, mapOf (A ++ B)⟩, 0⟩
            A.length B.length).transactions.len } := by
    rw [process_new_eq]
    rw [show (A ++ B).length = A.length + B.length from List.length_append A B]
    rw [processLoop_add A.length ⟨acc0, ⟨A ++ B, mapOf (A ++ B)⟩, 0⟩ 0 B.length]
    rw [he2, Nat.zero_add]
  rw [hL1, hL2, hC]
  rw [processLoop_cursor B.length acc1 ⟨P1 ++ B, mapOf (A ++ B)⟩
    P1.length 0 P1.length]
  rw [hlen1]

/-- Witness for the amended C2 at concrete tx-id-disjoint batches. -/
theorem C2_split_batch_amended_witness :
    ((Engine.new Accounts.empty).process (Transactions.fromList c2wA)).process
        (Transactions.fromList c2wB) =
      (Engine.new Accounts.empty).process
        (Transactions.fromList (c2wA ++ c2wB)) :=
  C2_split_batch_amended Accounts.empty c2wA c2wB (by decide)

end ToyPayments

namespace ToyPayments

/-- C7: from an empty engine, Deposit(client=1, tx=1, 1.5) then
Dispute(1,1) then Chargeback(1,1) yields account 1 with
available=0, held=0, total=0, locked=true, and a subsequent
Withdrawal(client=1, tx=2, 0.01) leaves that account state unchanged. -/
theorem C7_chargeback_scenario :
    c7Engine.readAcc 1 =
      { client := 1, available := 0, held := 0, total := 0, locked := true } ∧
    c7After.readAcc 1 = c7Engine.readAcc 1 := by
  decide

/-- C9: a dispute record carrying client 2 but referencing client 1's
deposit (tx 1, amount 5.0) moves the 5.0 into client 2's held balance,
drives client 2's available to -5.0, marks client 1's deposit disputed,
and leaves client 1's account untouched. -/
theorem C9_cross_client_dispute :
    (c9Engine.readAcc 2).available = -50000 ∧
    (c9Engine.readAcc 2).held = 50000 ∧
    (c9Engine.transactions.get 0).map Transaction.disputed = some true ∧
    c9Engine.readAcc 1 =
      { client := 1, available := 50000, held := 0, total := 50000, locked := false } := by
  decide

/-- C10: after deposit 1.0, withdrawal 1.0, dispute of the deposit, the
account's available balance is strictly negative, so `available >= 0` is
not an invariant. -/
theorem C10_negative_available :
    (c10Engine.readAcc 1).available = -10000 ∧ (c10Engine.readAcc 1).available < 0 := by
  decide

/-- C2 counterexample: with a duplicate tx id across the split point,
processing `c2A` then `c2B` gives client 2 available 5.0, while
processing `c2A ++ c2B` in one call gives client 2 available 0 (the
dispute in `c2A` resolves through the rebuilt index to the batch-B
deposit), so the two final states differ. -/
theorem C2_split_batch_counterexample :
    (c2Split.readAcc 2).available = 50000 ∧
    (c2Comb.readAcc 2).available = 0 ∧
    c2Split ≠ c2Comb := by
  refine ⟨by decide, by decide, fun h => ?_⟩
  have h2 : (c2Split.readAcc 2).available = (c2Comb.readAcc 2).available :=
    congrArg (fun e => (e.readAcc 2).available) h
  have h3 : (50000 : Int) = 0 := by
    calc (50000 : Int) = (c2Split.readAcc 2).available := by decide
    _ = (c2Comb.readAcc 2).available := h2
    _ = 0 := by decide
  exact absurd h3 (by decide)

/-- C6 counterexample: in `c6Pre` the account of client 1 is locked while
tx 2 is still disputed; processing the resolve record at position 5
finds the disputed target through the index, yet changes neither the
account's balances nor any stored record. -/
theorem C6_resolve_chargeback_counterexample :
    (c6Pre.readAcc 1).locked = true ∧
    c6Pre.transactions.get 5 = some (rsv 1 2) ∧
    (c6Pre.transactions.get_tx_mut 2).map (fun p => p.2.disputed) = some true ∧
    (c6Pre.process_transaction 5 1).readAcc 1 = c6Pre.readAcc 1 ∧
    (c6Pre.process_transaction 5 1).transactions.transactions =
      c6Pre.transactions.transactions := by
  decide

end ToyPayments
